import Mathlib

/-!
Shallow embedding of `stablehlo_legalize_to_hlo.cc` (StableHLO → MHLO
legalization): attribute translation (`convertAttr`), the generic
per-operation-kind conversion rule (`StablehloToHloOpConverter::matchAndRewrite`)
and the pattern registration entry point (`populateStablehloToHloPatterns`).
-/

namespace StablehloLegalizeToHlo

/-- Opaque SSA values (operands have already been converted upstream). -/
abbrev Value := Nat

/-- Opaque MLIR types; the type converter is an injected dependency. -/
abbrev Ty := String

/-- Opaque blocks: region contents are moved verbatim, never inspected. -/
abbrev Block := Nat

/-- A region is an ordered list of blocks, exclusively owned by its op. -/
abbrev Region := List Block

/-- The eight enumerated-symbol attribute kinds handled by the
`RETURN_CONVERTED_ENUM_ATTR` macro at lines 51-106 of the source file. -/
inductive EnumKind where
  | comparisonDirection
  | comparisonType
  | customCallApiVersion
  | fftType
  | precision
  | rngAlgorithm
  | rngDistribution
  | transpose
deriving DecidableEq, Repr

/-- Modelled from the spec: the symbol set of the target (mhlo) dialect for each
enumerated attribute kind. The enum definitions live in the generated
dialect schema (`hlo_ops.h` enums), not in the conversion pass itself; the
spec describes them as the externally versioned schema of the target
dialect. Enum values are represented by their print names. -/
def mhloSymbols : EnumKind → List String
  | .comparisonDirection => ["EQ", "NE", "GE", "GT", "LE", "LT"]
  | .comparisonType => ["NOTYPE", "FLOAT", "TOTALORDER", "SIGNED", "UNSIGNED"]
  | .customCallApiVersion =>
      ["API_VERSION_UNSPECIFIED", "API_VERSION_ORIGINAL",
       "API_VERSION_STATUS_RETURNING", "API_VERSION_STATUS_RETURNING_UNIFIED"]
  | .fftType => ["FFT", "IFFT", "RFFT", "IRFFT"]
  | .precision => ["DEFAULT", "HIGH", "HIGHEST"]
  | .rngAlgorithm => ["DEFAULT", "THREE_FRY", "PHILOX"]
  | .rngDistribution => ["UNIFORM", "NORMAL"]
  | .transpose => ["TRANSPOSE_INVALID", "NO_TRANSPOSE", "TRANSPOSE", "ADJOINT"]

/-- Modelled from the spec: `mhlo::symbolize<Name>` looks a symbol name up
among the symbols of that enum kind in the target dialect; it produces the
target enum value (represented by its name) exactly when the name is
present. -/
def symbolizeMhlo (k : EnumKind) (s : String) : Option String :=
  if s ∈ mhloSymbols k then some s else none

/-- Field record of `ChannelHandleAttr` (handle, type). -/
structure ChannelHandleData where
  handle : Int
  type : Int
deriving DecidableEq, Repr

/-- Field record of `ConvDimensionNumbersAttr`. -/
structure ConvDimensionNumbersData where
  inputBatchDimension : Int
  inputFeatureDimension : Int
  inputSpatialDimensions : List Int
  kernelInputFeatureDimension : Int
  kernelOutputFeatureDimension : Int
  kernelSpatialDimensions : List Int
  outputBatchDimension : Int
  outputFeatureDimension : Int
  outputSpatialDimensions : List Int
deriving DecidableEq, Repr

/-- Field record of `DotDimensionNumbersAttr`. -/
structure DotDimensionNumbersData where
  lhsBatchingDimensions : List Int
  rhsBatchingDimensions : List Int
  lhsContractingDimensions : List Int
  rhsContractingDimensions : List Int
deriving DecidableEq, Repr

/-- Field record of `GatherDimensionNumbersAttr`. -/
structure GatherDimensionNumbersData where
  offsetDims : List Int
  collapsedSliceDims : List Int
  startIndexMap : List Int
  indexVectorDim : Int
deriving DecidableEq, Repr

/-- Field record of `ScatterDimensionNumbersAttr`. -/
structure ScatterDimensionNumbersData where
  updateWindowDims : List Int
  insertedWindowDims : List Int
  scatterDimsToOperandDims : List Int
  indexVectorDim : Int
deriving DecidableEq, Repr

/-- MLIR attribute values as seen by this pass: the recognized StableHLO
record and enum variants, an unrecognized StableHLO-namespace kind, their
MHLO counterparts, the builtin `ArrayAttr` container, and any other
attribute from a non-StableHLO dialect (opaque, tagged by a string). -/
inductive Attribute where
  | stablehloChannelHandle (d : ChannelHandleData)
  | stablehloEnum (k : EnumKind) (symbol : String)
  | stablehloConvDimensionNumbers (d : ConvDimensionNumbersData)
  | stablehloDotDimensionNumbers (d : DotDimensionNumbersData)
  | stablehloGatherDimensionNumbers (d : GatherDimensionNumbersData)
  | stablehloScatterDimensionNumbers (d : ScatterDimensionNumbersData)
  | stablehloOther (tag : String)
  | mhloChannelHandle (d : ChannelHandleData)
  | mhloEnum (k : EnumKind) (symbol : String)
  | mhloConvDimensionNumbers (d : ConvDimensionNumbersData)
  | mhloDotDimensionNumbers (d : DotDimensionNumbersData)
  | mhloGatherDimensionNumbers (d : GatherDimensionNumbersData)
  | mhloScatterDimensionNumbers (d : ScatterDimensionNumbersData)
  | array (elems : List Attribute)
  | builtin (tag : String)
deriving Repr

/-- `attr.getDialect().getNamespace()`: which dialect an attribute
belongs to. `ArrayAttr` and the opaque leaves are builtin/foreign. -/
def Attribute.getNamespace : Attribute → String
  | .stablehloChannelHandle _ => "stablehlo"
  | .stablehloEnum _ _ => "stablehlo"
  | .stablehloConvDimensionNumbers _ => "stablehlo"
  | .stablehloDotDimensionNumbers _ => "stablehlo"
  | .stablehloGatherDimensionNumbers _ => "stablehlo"
  | .stablehloScatterDimensionNumbers _ => "stablehlo"
  | .stablehloOther _ => "stablehlo"
  | .mhloChannelHandle _ => "mhlo"
  | .mhloEnum _ _ => "mhlo"
  | .mhloConvDimensionNumbers _ => "mhlo"
  | .mhloDotDimensionNumbers _ => "mhlo"
  | .mhloGatherDimensionNumbers _ => "mhlo"
  | .mhloScatterDimensionNumbers _ => "mhlo"
  | .array _ => "builtin"
  | .builtin _ => "builtin"

/-- Whether the attribute is the builtin `ArrayAttr` container. -/
def Attribute.isArrayAttr : Attribute → Bool
  | .array _ => true
  | _ => false

/-- Whether the attribute is one of the StableHLO record or enum variants
recognized by the `dyn_cast` chain at lines 47-106 of `convertAttr`. -/
def Attribute.isRecognizedStablehlo : Attribute → Bool
  | .stablehloChannelHandle _ => true
  | .stablehloEnum _ _ => true
  | .stablehloConvDimensionNumbers _ => true
  | .stablehloDotDimensionNumbers _ => true
  | .stablehloGatherDimensionNumbers _ => true
  | .stablehloScatterDimensionNumbers _ => true
  | _ => false

mutual

/-- `convertAttr` (lines 43-127): translate one StableHLO attribute to its
MHLO equivalent. Recognized StableHLO record variants copy their fields;
enum variants stringify the source symbol and symbolize it in mhlo,
failing (`return {}`, here `none`) when the target symbol is absent; any
other StableHLO-namespace value fails; `ArrayAttr` recurses elementwise;
everything else is returned unchanged. -/
def convertAttr : Attribute → Option Attribute
  | .stablehloChannelHandle d => some (.mhloChannelHandle d)
  | .stablehloEnum k symbol =>
      match symbolizeMhlo k symbol with
      | none => none
      | some hloValue => some (.mhloEnum k hloValue)
  | .stablehloConvDimensionNumbers d => some (.mhloConvDimensionNumbers d)
  | .stablehloDotDimensionNumbers d => some (.mhloDotDimensionNumbers d)
  | .stablehloGatherDimensionNumbers d => some (.mhloGatherDimensionNumbers d)
  | .stablehloScatterDimensionNumbers d => some (.mhloScatterDimensionNumbers d)
  | .stablehloOther _ => none
  | .array stablehloAttrs =>
      match convertAttrList stablehloAttrs with
      | none => none
      | some hloAttrs => some (.array hloAttrs)
  | .mhloChannelHandle d => some (.mhloChannelHandle d)
  | .mhloEnum k symbol => some (.mhloEnum k symbol)
  | .mhloConvDimensionNumbers d => some (.mhloConvDimensionNumbers d)
  | .mhloDotDimensionNumbers d => some (.mhloDotDimensionNumbers d)
  | .mhloGatherDimensionNumbers d => some (.mhloGatherDimensionNumbers d)
  | .mhloScatterDimensionNumbers d => some (.mhloScatterDimensionNumbers d)
  | .builtin tag => some (.builtin tag)

/-- The loop at lines 118-123: convert each element of an `ArrayAttr` in
order, failing as soon as one element fails. -/
def convertAttrList : List Attribute → Option (List Attribute)
  | [] => some []
  | stablehloAttr :: rest =>
      match convertAttr stablehloAttr with
      | none => none
      | some hloAttr =>
          match convertAttrList rest with
          | none => none
          | some hloAttrs => some (hloAttr :: hloAttrs)

end

/-- An operation instance: dialect-qualified kind tag, ordered result
types, ordered operands, named attributes (name-unique per op), and owned
nested regions. -/
structure Operation where
  dialect : String
  opName : String
  resultTypes : List Ty
  operands : List Value
  attrs : List (String × Attribute)
  regions : List Region
deriving Repr

/-- `TypeConverter::convertTypes` (called at line 145): convert each type
in order through the injected per-type converter `tc`, appending the
converted types; fails as soon as one type fails. The per-type rules are
an injected, opaque dependency (`StablehloToHloTypeConverter`). -/
def convertTypes (tc : Ty → Option (List Ty)) : List Ty → Option (List Ty)
  | [] => some []
  | t :: ts =>
      match tc t with
      | none => none
      | some hs =>
          match convertTypes tc ts with
          | none => none
          | some rest => some (hs ++ rest)

/-- The loop at lines 156-161: convert each named attribute value via
`convertAttr`, keeping the attribute name, failing the whole rule as soon
as one value fails. -/
def convertNamedAttrs : List (String × Attribute) → Option (List (String × Attribute))
  | [] => some []
  | (name, value) :: rest =>
      match convertAttr value with
      | none => none
      | some hloAttr =>
          match convertNamedAttrs rest with
          | none => none
          | some hloAttrs => some ((name, hloAttr) :: hloAttrs)

/-- The region count the builder is called with (lines 167-175): for
`stablehlo.case` it is the own region count of the source instance
(`stablehloOp.branches().size()`, the extra builder argument); for every
other kind the generic builder creates the declared number
of regions `declared`. -/
def constructedRegionCount (stablehloOp : Operation) (declared : Nat) : Nat :=
  if stablehloOp.opName = "case" then stablehloOp.regions.length else declared

/-- `rewriter.inlineRegionBefore(src, dst, dst.end())` applied pairwise by
the `llvm::zip` loop at lines 179-182: slot `i` of the new instance
receives its own (empty) blocks followed by the moved blocks of source
region `i`; `zip` stops at the shorter list. -/
def inlineRegions : List Region → List Region → List Region
  | _, [] => []
  | [], ds => ds
  | s :: ss, d :: ds => (d ++ s) :: inlineRegions ss ds

/-- `StablehloToHloOpConverter::matchAndRewrite` (lines 135-184), as a
function from the source instance and its already-converted operands to
the replacement instance: convert result types, accept operands, convert
named attributes, build the mhlo op of the same mnemonic (with the
region-count argument for `case`), and move the regions in. `none` means
`failure()`: the rule does not apply and the source op is untouched.
`declared` is the schema-declared region count of the target kind, used by the
generic builder. -/
def matchAndRewrite (tc : Ty → Option (List Ty)) (declared : Nat)
    (stablehloOp : Operation) (hloOperands : List Value) : Option Operation :=
  match convertTypes tc stablehloOp.resultTypes with
  | none => none
  | some hloTypes =>
      match convertNamedAttrs stablehloOp.attrs with
      | none => none
      | some hloAttrs =>
          let emptyRegions : List Region :=
            List.replicate (constructedRegionCount stablehloOp declared) []
          some { dialect := "mhlo"
                 opName := stablehloOp.opName
                 resultTypes := hloTypes
                 operands := hloOperands
                 attrs := hloAttrs
                 regions := inlineRegions stablehloOp.regions emptyRegions }

/-- One rule application at position `i` of a block, as the traversal
engine observes it: if the rule fails the block is returned unchanged
(the source instance keeps its types, operands, attributes and regions);
if it succeeds the instance at `i` is replaced by the new one. -/
def applyRuleAt (tc : Ty → Option (List Ty)) (declared : Nat)
    (block : List Operation) (i : Nat) (hloOperands : List Value) :
    List Operation :=
  match block.get? i with
  | none => block
  | some stablehloOp =>
      match matchAndRewrite tc declared stablehloOp hloOperands with
      | none => block
      | some hloOp => block.set i hloOp

/-- One registered conversion pattern: the source operation kind it
matches and the type converter wired into it at construction
(`patterns->add<StablehloToHloOpConverter<OpTypes>...>(*converter, context)`). -/
structure ConversionPattern where
  sourceKind : String
  converter : Nat
deriving DecidableEq, Repr

/-- Modelled from the spec: the closed, externally enumerable list of
StableHLO operation kinds (`GET_OP_LIST` from the generated
`StablehloOps.cpp.inc`, a versioned external schema not in this pass).
Kinds are pairwise distinct mnemonics. -/
def stablehloOpNames : List String :=
  ["abs", "add", "after_all", "and", "atan2", "batch_norm_grad",
   "batch_norm_inference", "batch_norm_training", "broadcast",
   "broadcast_in_dim", "case", "cbrt", "ceil", "cholesky", "clamp",
   "collective_permute", "compare", "complex", "concatenate", "constant",
   "convert", "convolution", "cosine", "count_leading_zeros",
   "create_token", "cross-replica-sum", "custom_call", "divide",
   "dot", "dot_general", "dynamic_slice", "dynamic_update_slice",
   "einsum", "exponential", "exponential_minus_one", "fft", "floor",
   "gather", "get_dimension_size", "get_tuple_element", "if", "imag",
   "infeed", "iota", "is_finite", "log", "log_plus_one", "logistic",
   "map", "maximum", "minimum", "multiply", "negate", "not", "optimization_barrier",
   "or", "outfeed", "pad", "popcnt", "power", "real", "real_dynamic_slice",
   "recv", "reduce", "reduce_precision", "reduce_scatter", "reduce_window",
   "remainder", "replica_id", "reshape", "return", "reverse", "rng",
   "rng_bit_generator", "round_nearest_afz", "round_nearest_even", "rsqrt",
   "scatter", "select", "select_and_scatter", "send", "shift_left",
   "shift_right_arithmetic", "shift_right_logical", "sign", "sine", "slice",
   "sort", "sqrt", "subtract", "tanh", "torch_index_select", "trace",
   "transpose", "triangular_solve", "tuple", "unary_einsum",
   "uniform_dequantize", "uniform_quantize", "while", "xor"]

/-- `populateStablehloToHloPatterns` (lines 197-206 via the variadic
template at 187-193): instantiate one `StablehloToHloOpConverter` per
schema-enumerated operation kind, wiring the injected type converter into
each, and register them all. -/
def populateStablehloToHloPatterns (converter : Nat) : List ConversionPattern :=
  stablehloOpNames.map (fun k => { sourceKind := k, converter := converter })

mutual

/-- An attribute is StableHLO-free when no value of the source namespace
occurs in it at any container nesting depth. -/
def attrIsStablehloFree : Attribute → Bool
  | .array elems => listIsStablehloFree elems
  | a => a.getNamespace != "stablehlo"

/-- Elementwise `attrIsStablehloFree` over the elements of an `ArrayAttr`. -/
def listIsStablehloFree : List Attribute → Bool
  | [] => true
  | a :: rest => attrIsStablehloFree a && listIsStablehloFree rest

end

/-- Modelled from the spec: `mhlo::stringify<Name>` maps a target enum
value back to its symbol name; target enum values are represented here by
their print names, so stringification reads the stored symbol of an mhlo
enum attribute. -/
def stringifyMhlo : Attribute → Option String
  | .mhloEnum _ symbol => some symbol
  | _ => none

/-- A sample injected type converter for concrete instantiations: each
type converts to itself (one-to-one). -/
def sampleTc : Ty → Option (List Ty) := fun t => some [t]

/-- Scenario instance from the spec: a `stablehlo.compare` op with attribute
`comparison_direction = GE`, two operands and result type `tensor<4xi1>`. -/
def compareOp : Operation :=
  { dialect := "stablehlo"
    opName := "compare"
    resultTypes := ["tensor<4xi1>"]
    operands := [1, 2]
    attrs := [("comparison_direction", .stablehloEnum .comparisonDirection "GE")]
    regions := [] }

/-- Scenario instance from the spec: a `stablehlo.case` op owning 3 regions. -/
def caseOp : Operation :=
  { dialect := "stablehlo"
    opName := "case"
    resultTypes := ["tensor<i32>"]
    operands := [0]
    attrs := []
    regions := [[1], [2], [3]] }

/-- The replacement instance that converting `caseOp` produces. -/
def caseHloOp : Operation :=
  { dialect := "mhlo"
    opName := "case"
    resultTypes := ["tensor<i32>"]
    operands := [0]
    attrs := []
    regions := [[1], [2], [3]] }

/-- A source instance whose attribute conversion fails: its attribute is a
StableHLO-namespace value of an unrecognized kind. -/
def badAttrOp : Operation :=
  { dialect := "stablehlo"
    opName := "custom_call"
    resultTypes := ["tensor<i32>"]
    operands := [5]
    attrs := [("backend_config", .stablehloOther "new_kind")]
    regions := [] }

/-! ### Basic lemmas about the element-wise conversion loops -/

theorem convertAttrList_forall₂ {as bs : List Attribute}
    (h : convertAttrList as = some bs) :
    List.Forall₂ (fun a b => convertAttr a = some b) as bs := by
  induction as generalizing bs with
  | nil =>
      simp only [convertAttrList, Option.some.injEq] at h
      subst h
      exact List.Forall₂.nil
  | cons a rest ih =>
      cases hca : convertAttr a with
      | none => simp [convertAttrList, hca] at h
      | some hb =>
          cases hcl : convertAttrList rest with
          | none => simp [convertAttrList, hca, hcl] at h
          | some hbs =>
              simp only [convertAttrList, hca, hcl, Option.some.injEq] at h
              subst h
              exact List.Forall₂.cons hca (ih hcl)

theorem convertAttrList_eq_none_iff {as : List Attribute} :
    convertAttrList as = none ↔ ∃ a ∈ as, convertAttr a = none := by
  induction as with
  | nil => simp [convertAttrList]
  | cons a rest ih =>
      cases hca : convertAttr a with
      | none =>
          simp only [convertAttrList, hca]
          exact iff_of_true trivial ⟨a, List.mem_cons_self a rest, hca⟩
      | some hb =>
          cases hcl : convertAttrList rest with
          | none =>
              simp only [convertAttrList, hca, hcl]
              obtain ⟨x, hx, hxn⟩ := ih.mp hcl
              exact iff_of_true trivial ⟨x, List.mem_cons_of_mem a hx, hxn⟩
          | some hbs =>
              simp only [convertAttrList, hca, hcl]
              constructor
              · intro hfalse
                exact absurd hfalse (by simp)
              · rintro ⟨x, hx, hxn⟩
                rcases List.mem_cons.mp hx with rfl | hx'
                · rw [hca] at hxn
                  exact absurd hxn (by simp)
                · have : convertAttrList rest = none := ih.mpr ⟨x, hx', hxn⟩
                  rw [hcl] at this
                  exact absurd this (by simp)

theorem convertNamedAttrs_forall₂ {l l' : List (String × Attribute)}
    (h : convertNamedAttrs l = some l') :
    List.Forall₂ (fun p q => q.1 = p.1 ∧ convertAttr p.2 = some q.2) l l' := by
  induction l generalizing l' with
  | nil =>
      simp only [convertNamedAttrs, Option.some.injEq] at h
      subst h
      exact List.Forall₂.nil
  | cons p rest ih =>
      obtain ⟨name, value⟩ := p
      cases hca : convertAttr value with
      | none => simp [convertNamedAttrs, hca] at h
      | some hb =>
          cases hcl : convertNamedAttrs rest with
          | none => simp [convertNamedAttrs, hca, hcl] at h
          | some hbs =>
              simp only [convertNamedAttrs, hca, hcl, Option.some.injEq] at h
              subst h
              exact List.Forall₂.cons ⟨rfl, hca⟩ (ih hcl)

theorem convertNamedAttrs_eq_none_iff {l : List (String × Attribute)} :
    convertNamedAttrs l = none ↔ ∃ p ∈ l, convertAttr p.2 = none := by
  induction l with
  | nil => simp [convertNamedAttrs]
  | cons p rest ih =>
      obtain ⟨name, value⟩ := p
      cases hca : convertAttr value with
      | none =>
          simp only [convertNamedAttrs, hca]
          exact iff_of_true trivial ⟨(name, value), List.mem_cons_self _ rest, hca⟩
      | some hb =>
          cases hcl : convertNamedAttrs rest with
          | none =>
              simp only [convertNamedAttrs, hca, hcl]
              obtain ⟨x, hx, hxn⟩ := ih.mp hcl
              exact iff_of_true trivial ⟨x, List.mem_cons_of_mem _ hx, hxn⟩
          | some hbs =>
              simp only [convertNamedAttrs, hca, hcl]
              constructor
              · intro hfalse
                exact absurd hfalse (by simp)
              · rintro ⟨x, hx, hxn⟩
                rcases List.mem_cons.mp hx with rfl | hx'
                · rw [hca] at hxn
                  exact absurd hxn (by simp)
                · have : convertNamedAttrs rest = none := ih.mpr ⟨x, hx', hxn⟩
                  rw [hcl] at this
                  exact absurd this (by simp)

theorem convertTypes_eq_none_iff {tc : Ty → Option (List Ty)} {ts : List Ty} :
    convertTypes tc ts = none ↔ ∃ t ∈ ts, tc t = none := by
  induction ts with
  | nil => simp [convertTypes]
  | cons t rest ih =>
      cases hct : tc t with
      | none =>
          simp only [convertTypes, hct]
          exact iff_of_true trivial ⟨t, List.mem_cons_self t rest, hct⟩
      | some hs =>
          cases hcl : convertTypes tc rest with
          | none =>
              simp only [convertTypes, hct, hcl]
              obtain ⟨x, hx, hxn⟩ := ih.mp hcl
              exact iff_of_true trivial ⟨x, List.mem_cons_of_mem t hx, hxn⟩
          | some rest' =>
              simp only [convertTypes, hct, hcl]
              constructor
              · intro hfalse
                exact absurd hfalse (by simp)
              · rintro ⟨x, hx, hxn⟩
                rcases List.mem_cons.mp hx with rfl | hx'
                · rw [hct] at hxn
                  exact absurd hxn (by simp)
                · have : convertTypes tc rest = none := ih.mpr ⟨x, hx', hxn⟩
                  rw [hcl] at this
                  exact absurd this (by simp)

theorem matchAndRewrite_eq_some {tc : Ty → Option (List Ty)} {declared : Nat}
    {op : Operation} {hloOperands : List Value} {hloTypes : List Ty}
    {hloAttrs : List (String × Attribute)}
    (ht : convertTypes tc op.resultTypes = some hloTypes)
    (ha : convertNamedAttrs op.attrs = some hloAttrs) :
    matchAndRewrite tc declared op hloOperands =
      some { dialect := "mhlo"
             opName := op.opName
             resultTypes := hloTypes
             operands := hloOperands
             attrs := hloAttrs
             regions := inlineRegions op.regions
               (List.replicate (constructedRegionCount op declared) []) } := by
  simp [matchAndRewrite, ht, ha]

theorem matchAndRewrite_eq_none_iff {tc : Ty → Option (List Ty)} {declared : Nat}
    {op : Operation} {hloOperands : List Value} :
    matchAndRewrite tc declared op hloOperands = none ↔
      convertTypes tc op.resultTypes = none ∨ convertNamedAttrs op.attrs = none := by
  cases ht : convertTypes tc op.resultTypes <;>
    cases ha : convertNamedAttrs op.attrs <;>
      simp [matchAndRewrite, ht, ha]

theorem inlineRegions_replicate_self :
    ∀ ss : List Region, inlineRegions ss (List.replicate ss.length []) = ss := by
  intro ss
  induction ss with
  | nil => rfl
  | cons s rest ih =>
      simp only [List.length_cons, List.replicate_succ, inlineRegions,
        List.nil_append]
      rw [ih]

theorem inlineRegions_replicate_get? :
    ∀ (ss : List Region) (n i : Nat), i < ss.length → i < n →
      (inlineRegions ss (List.replicate n [])).get? i = ss.get? i := by
  intro ss
  induction ss with
  | nil =>
      intro n i h1 _
      exact absurd h1 (by simp)
  | cons s rest ih =>
      intro n i h1 h2
      cases n with
      | zero => exact absurd h2 (Nat.not_lt_zero i)
      | succ n =>
          cases i with
          | zero => simp [List.replicate_succ, inlineRegions]
          | succ i =>
              simp only [List.replicate_succ, inlineRegions, List.nil_append,
                List.get?_cons_succ]
              exact ih n i (by simpa using h1) (Nat.lt_of_succ_lt_succ h2)

theorem filter_map_sourceKind (c : Nat) (k : String) :
    ∀ ns : List String,
      ((ns.map (fun n => ({ sourceKind := n, converter := c } : ConversionPattern))).filter
          (fun p => p.sourceKind == k)).length =
        (ns.filter (fun n => n == k)).length := by
  intro ns
  induction ns with
  | nil => rfl
  | cons n rest ih =>
      simp only [List.map_cons, List.filter_cons]
      by_cases h : n = k
      · subst h
        simp [ih]
      · simp only [show (({ sourceKind := n, converter := c } : ConversionPattern).sourceKind
            == k) = false by simpa using h, show (n == k) = false by simpa using h]
        exact ih

theorem stablehloOpNames_nodup : stablehloOpNames.Nodup := by decide

theorem convertAttr_stablehloFree :
    ∀ a : Attribute, ∀ b, convertAttr a = some b → attrIsStablehloFree b = true := by
  have H := convertAttr.induct
    (fun a => ∀ b, convertAttr a = some b → attrIsStablehloFree b = true)
    (fun as => ∀ bs, convertAttrList as = some bs → listIsStablehloFree bs = true)
  apply H
  · intro d b h
    exact Option.some.inj h ▸ rfl
  · intro k symbol hn b h
    simp [convertAttr, hn] at h
  · intro k symbol hv hs b h
    simp only [convertAttr, hs, Option.some.injEq] at h
    subst h
    rfl
  · intro d b h
    exact Option.some.inj h ▸ rfl
  · intro d b h
    exact Option.some.inj h ▸ rfl
  · intro d b h
    exact Option.some.inj h ▸ rfl
  · intro d b h
    exact Option.some.inj h ▸ rfl
  · intro t b h
    exact Option.noConfusion h
  · intro as hn ih2 b h
    simp [convertAttr, hn] at h
  · intro as hloAttrs hsome ih2 b h
    simp only [convertAttr, hsome, Option.some.injEq] at h
    subst h
    exact ih2 hloAttrs hsome
  · intro d b h
    exact Option.some.inj h ▸ rfl
  · intro k symbol b h
    exact Option.some.inj h ▸ rfl
  · intro d b h
    exact Option.some.inj h ▸ rfl
  · intro d b h
    exact Option.some.inj h ▸ rfl
  · intro d b h
    exact Option.some.inj h ▸ rfl
  · intro d b h
    exact Option.some.inj h ▸ rfl
  · intro t b h
    exact Option.some.inj h ▸ rfl
  · intro bs h
    exact Option.some.inj h ▸ rfl
  · intro a rest hn ih1 bs h
    simp [convertAttrList, hn] at h
  · intro a rest hloAttr hsome hrn ih1 ih2 bs h
    simp [convertAttrList, hsome, hrn] at h
  · intro a rest hloAttr hsome hloAttrs hrest ih1 ih2 bs h
    simp only [convertAttrList, hsome, hrest, Option.some.injEq] at h
    subst h
    simp only [listIsStablehloFree, Bool.and_eq_true]
    exact ⟨ih1 hloAttr hsome, ih2 hloAttrs hrest⟩

/-! ### Claim theorems -/

/-- Claim C1: for every source operation instance whose result types all
convert via the injected type converter and whose attributes all convert
via the attribute translator, the conversion rule produces exactly one
replacement instance whose result types are the converted types, whose
operands are the already-translated operands in identical order, and
whose attributes are the translated values under the same preserved
names. -/
theorem conversionRule_builds_replacement
    (tc : Ty → Option (List Ty)) (declared : Nat) (op : Operation)
    (hloOperands : List Value) (hloTypes : List Ty)
    (hloAttrs : List (String × Attribute))
    (ht : convertTypes tc op.resultTypes = some hloTypes)
    (ha : convertNamedAttrs op.attrs = some hloAttrs) :
    matchAndRewrite tc declared op hloOperands =
      some { dialect := "mhlo"
             opName := op.opName
             resultTypes := hloTypes
             operands := hloOperands
             attrs := hloAttrs
             regions := inlineRegions op.regions
               (List.replicate (constructedRegionCount op declared) []) } ∧
    hloAttrs.length = op.attrs.length ∧
    ∀ i (h1 : i < op.attrs.length) (h2 : i < hloAttrs.length),
      (hloAttrs.get ⟨i, h2⟩).1 = (op.attrs.get ⟨i, h1⟩).1 ∧
      convertAttr (op.attrs.get ⟨i, h1⟩).2 = some (hloAttrs.get ⟨i, h2⟩).2 := by
  have hf := convertNamedAttrs_forall₂ ha
  refine ⟨matchAndRewrite_eq_some ht ha, hf.length_eq.symm, ?_⟩
  intro i h1 h2
  exact (List.forall₂_iff_get.mp hf).2 i h1 h2

theorem conversionRule_builds_replacement_witness :
    matchAndRewrite sampleTc 0 compareOp [1, 2] =
      some { dialect := "mhlo"
             opName := "compare"
             resultTypes := ["tensor<4xi1>"]
             operands := [1, 2]
             attrs := [("comparison_direction",
                        Attribute.mhloEnum .comparisonDirection "GE")]
             regions := [] } :=
  (conversionRule_builds_replacement sampleTc 0 compareOp [1, 2]
    ["tensor<4xi1>"]
    [("comparison_direction", Attribute.mhloEnum .comparisonDirection "GE")]
    rfl rfl).1

/-- Claim C2: conversion of one operation instance is atomic. The rule
fails exactly when the type converter fails on some result type or the
attribute translator fails on some attribute value, and on any such
failure the rule returns non-application with the source instance left
entirely unmodified in its block; no partial replacement is produced. -/
theorem conversionRule_atomic_failure
    (tc : Ty → Option (List Ty)) (declared : Nat) (op : Operation)
    (hloOperands : List Value) (block : List Operation) (i : Nat) :
    (matchAndRewrite tc declared op hloOperands = none ↔
      (∃ t ∈ op.resultTypes, tc t = none) ∨
      (∃ p ∈ op.attrs, convertAttr p.2 = none)) ∧
    (block.get? i = some op →
      matchAndRewrite tc declared op hloOperands = none →
      applyRuleAt tc declared block i hloOperands = block) := by
  constructor
  · rw [matchAndRewrite_eq_none_iff, convertTypes_eq_none_iff,
      convertNamedAttrs_eq_none_iff]
  · intro hget hnone
    simp only [applyRuleAt, hget, hnone]

theorem conversionRule_atomic_failure_witness :
    applyRuleAt sampleTc 0 [badAttrOp] 0 [5] = [badAttrOp] :=
  (conversionRule_atomic_failure sampleTc 0 badAttrOp [5] [badAttrOp] 0).2 rfl rfl

/-- Claim C3: for every enumerated-symbol attribute variant, translation
stringifies the source symbol and looks that string up among the symbols
of identical name in the target dialect; it fails if and only if no
target symbol of that name exists. -/
theorem convertAttr_enum_lookup (k : EnumKind) (s : String) :
    convertAttr (.stablehloEnum k s) =
      if s ∈ mhloSymbols k then some (.mhloEnum k s) else none := by
  by_cases hs : s ∈ mhloSymbols k <;>
    simp [convertAttr, symbolizeMhlo, hs]

/-- Claim C4: every attribute value in the source (stablehlo) namespace
that is not one of the recognized record or enumerated variants fails to
translate; it is never passed through unchanged. -/
theorem convertAttr_unrecognized_stablehlo_fails (a : Attribute)
    (hns : a.getNamespace = "stablehlo")
    (hrec : a.isRecognizedStablehlo = false) :
    convertAttr a = none := by
  cases a
  all_goals first
    | rfl
    | (exfalso; revert hrec; simp [Attribute.isRecognizedStablehlo]; done)
    | (exfalso; revert hns; simp [Attribute.getNamespace]; done)

theorem convertAttr_unrecognized_stablehlo_fails_witness :
    convertAttr (.stablehloOther "custom") = none :=
  convertAttr_unrecognized_stablehlo_fails (.stablehloOther "custom") rfl rfl

/-- Claim C5: translating an ordered-sequence attribute of N elements
translates each element in order and yields a container of exactly N
elements whose element at index i is the translation of the source
element at index i; the empty sequence maps to the empty sequence; and
the container translation fails if the translation of any element
fails. -/
theorem convertAttr_array_elementwise (as : List Attribute) :
    convertAttr (.array []) = some (.array []) ∧
    (∀ b, convertAttr (.array as) = some b →
      ∃ bs, b = .array bs ∧ bs.length = as.length ∧
        ∀ i (h1 : i < as.length) (h2 : i < bs.length),
          convertAttr (as.get ⟨i, h1⟩) = some (bs.get ⟨i, h2⟩)) ∧
    ((∃ a ∈ as, convertAttr a = none) → convertAttr (.array as) = none) := by
  refine ⟨rfl, ?_, ?_⟩
  · intro b h
    cases hcl : convertAttrList as with
    | none => simp [convertAttr, hcl] at h
    | some bs =>
        simp only [convertAttr, hcl, Option.some.injEq] at h
        subst h
        have hf := convertAttrList_forall₂ hcl
        exact ⟨bs, rfl, hf.length_eq.symm,
          fun i h1 h2 => (List.forall₂_iff_get.mp hf).2 i h1 h2⟩
  · intro hex
    have hcl : convertAttrList as = none := convertAttrList_eq_none_iff.mpr hex
    simp [convertAttr, hcl]

theorem convertAttr_array_elementwise_witness :
    (∃ bs, (Attribute.array [Attribute.mhloEnum .fftType "FFT"]) = .array bs ∧
        bs.length = [Attribute.stablehloEnum .fftType "FFT"].length ∧
        ∀ i (h1 : i < [Attribute.stablehloEnum .fftType "FFT"].length)
          (h2 : i < bs.length),
          convertAttr ([Attribute.stablehloEnum .fftType "FFT"].get ⟨i, h1⟩) =
            some (bs.get ⟨i, h2⟩)) ∧
    convertAttr (.array [.stablehloOther "y"]) = none :=
  ⟨(convertAttr_array_elementwise [Attribute.stablehloEnum .fftType "FFT"]).2.1
      (Attribute.array [Attribute.mhloEnum .fftType "FFT"]) rfl,
   (convertAttr_array_elementwise [Attribute.stablehloOther "y"]).2.2
      ⟨Attribute.stablehloOther "y", List.mem_singleton.mpr rfl, rfl⟩⟩

/-- Claim C6: translating any non-container attribute value outside the
source (stablehlo) namespace returns it unchanged, while container
attributes still recurse into their elements rather than being returned
as-is. -/
theorem convertAttr_foreign_identity (a : Attribute) (as : List Attribute)
    (hns : a.getNamespace ≠ "stablehlo") (harr : a.isArrayAttr = false) :
    convertAttr a = some a ∧
    convertAttr (.array as) = (convertAttrList as).map Attribute.array := by
  constructor
  · cases a
    all_goals first
      | rfl
      | (exact absurd rfl hns)
      | (exact absurd harr (by simp [Attribute.isArrayAttr]))
  · simp only [convertAttr]
    cases convertAttrList as <;> simp

theorem convertAttr_foreign_identity_witness :
    convertAttr (.builtin "unit") = some (.builtin "unit") ∧
    convertAttr (.array [.stablehloEnum .transpose "ADJOINT"]) =
      (convertAttrList [.stablehloEnum .transpose "ADJOINT"]).map Attribute.array :=
  convertAttr_foreign_identity (.builtin "unit")
    [.stablehloEnum .transpose "ADJOINT"] (by decide) rfl

/-- Claim C7: for every converted operation instance, each nested region
of the source is relocated in declaration order into the corresponding
region slot of the replacement instance; and for the variadic-region
kind `case` the replacement is constructed with a branch-count argument
equal to the region count of the source instance itself. -/
theorem conversionRule_relocates_regions
    (tc : Ty → Option (List Ty)) (declared : Nat) (op : Operation)
    (hloOperands : List Value) (hloOp : Operation) :
    (matchAndRewrite tc declared op hloOperands = some hloOp →
      ∀ i, i < op.regions.length → i < constructedRegionCount op declared →
        hloOp.regions.get? i = op.regions.get? i) ∧
    (op.opName = "case" →
      constructedRegionCount op declared = op.regions.length) ∧
    (op.opName = "case" →
      matchAndRewrite tc declared op hloOperands = some hloOp →
      hloOp.regions = op.regions) := by
  have hcase : op.opName = "case" →
      constructedRegionCount op declared = op.regions.length := by
    intro h
    simp [constructedRegionCount, h]
  refine ⟨?_, hcase, ?_⟩
  · intro hmr i h1 h2
    cases ht : convertTypes tc op.resultTypes with
    | none => simp [matchAndRewrite, ht] at hmr
    | some hloTypes =>
        cases ha : convertNamedAttrs op.attrs with
        | none => simp [matchAndRewrite, ht, ha] at hmr
        | some hloAttrs =>
            rw [matchAndRewrite_eq_some ht ha] at hmr
            cases Option.some.inj hmr
            exact inlineRegions_replicate_get? op.regions _ i h1 h2
  · intro hc hmr
    cases ht : convertTypes tc op.resultTypes with
    | none => simp [matchAndRewrite, ht] at hmr
    | some hloTypes =>
        cases ha : convertNamedAttrs op.attrs with
        | none => simp [matchAndRewrite, ht, ha] at hmr
        | some hloAttrs =>
            rw [matchAndRewrite_eq_some ht ha] at hmr
            cases Option.some.inj hmr
            show inlineRegions op.regions
              (List.replicate (constructedRegionCount op declared) []) = op.regions
            rw [hcase hc]
            exact inlineRegions_replicate_self op.regions

theorem conversionRule_relocates_regions_witness :
    caseHloOp.regions = caseOp.regions ∧
    constructedRegionCount caseOp 0 = caseOp.regions.length :=
  ⟨(conversionRule_relocates_regions sampleTc 0 caseOp [0] caseHloOp).2.2 rfl rfl,
   (conversionRule_relocates_regions sampleTc 0 caseOp [0] caseHloOp).2.1 rfl⟩

/-- Claim C8: for every enumerated symbol known to both dialects, that is
whose stringification names a symbol present in the target symbol set,
translating an enum attribute built from it produces a target enum
attribute whose re-stringified symbol is the same symbol. -/
theorem convertAttr_enum_roundtrip (k : EnumKind) (s : String)
    (hs : s ∈ mhloSymbols k) :
    ∃ b, convertAttr (.stablehloEnum k s) = some b ∧ stringifyMhlo b = some s := by
  refine ⟨.mhloEnum k s, ?_, rfl⟩
  simp [convertAttr, symbolizeMhlo, hs]

theorem convertAttr_enum_roundtrip_witness :
    ∃ b, convertAttr (.stablehloEnum .comparisonDirection "GE") = some b ∧
      stringifyMhlo b = some "GE" :=
  convertAttr_enum_roundtrip .comparisonDirection "GE" (by decide)

/-- Claim C9: the registration entry point builds and registers exactly
one conversion rule per operation kind in the enumerable list of the
source schema — no kind omitted and none registered twice — wiring the
injected type converter into every rule. -/
theorem populatePatterns_one_rule_per_kind (converter : Nat) :
    (∀ k ∈ stablehloOpNames,
      ((populateStablehloToHloPatterns converter).filter
          (fun p => p.sourceKind == k)).length = 1) ∧
    (∀ p ∈ populateStablehloToHloPatterns converter,
      p.sourceKind ∈ stablehloOpNames ∧ p.converter = converter) := by
  constructor
  · intro k hk
    rw [populateStablehloToHloPatterns, filter_map_sourceKind]
    rw [← List.countP_eq_length_filter]
    show stablehloOpNames.count k = 1
    exact List.count_eq_one_of_mem stablehloOpNames_nodup hk
  · intro p hp
    simp only [populateStablehloToHloPatterns, List.mem_map] at hp
    obtain ⟨n, hn, rfl⟩ := hp
    exact ⟨hn, rfl⟩

theorem populatePatterns_one_rule_per_kind_witness :
    ((populateStablehloToHloPatterns 7).filter
        (fun p => p.sourceKind == "compare")).length = 1 :=
  (populatePatterns_one_rule_per_kind 7).1 "compare" (by decide)

/-- Claim C10: whenever attribute translation succeeds, the produced
value never belongs to the source (stablehlo) namespace at any container
nesting depth, and every recognized source-namespace variant is mapped
to its target (mhlo) counterpart. -/
theorem convertAttr_output_stablehloFree (a b : Attribute)
    (h : convertAttr a = some b) :
    attrIsStablehloFree b = true ∧
    (a.isRecognizedStablehlo = true → b.getNamespace = "mhlo") := by
  refine ⟨convertAttr_stablehloFree a b h, ?_⟩
  intro hrec
  cases a with
  | stablehloEnum k s =>
      cases hsym : symbolizeMhlo k s with
      | none => simp [convertAttr, hsym] at h
      | some v =>
          simp only [convertAttr, hsym, Option.some.injEq] at h
          subst h
          rfl
  | stablehloChannelHandle d => exact Option.some.inj h ▸ rfl
  | stablehloConvDimensionNumbers d => exact Option.some.inj h ▸ rfl
  | stablehloDotDimensionNumbers d => exact Option.some.inj h ▸ rfl
  | stablehloGatherDimensionNumbers d => exact Option.some.inj h ▸ rfl
  | stablehloScatterDimensionNumbers d => exact Option.some.inj h ▸ rfl
  | stablehloOther t =>
      exact absurd hrec (by simp [Attribute.isRecognizedStablehlo])
  | mhloChannelHandle d =>
      exact absurd hrec (by simp [Attribute.isRecognizedStablehlo])
  | mhloEnum k s =>
      exact absurd hrec (by simp [Attribute.isRecognizedStablehlo])
  | mhloConvDimensionNumbers d =>
      exact absurd hrec (by simp [Attribute.isRecognizedStablehlo])
  | mhloDotDimensionNumbers d =>
      exact absurd hrec (by simp [Attribute.isRecognizedStablehlo])
  | mhloGatherDimensionNumbers d =>
      exact absurd hrec (by simp [Attribute.isRecognizedStablehlo])
  | mhloScatterDimensionNumbers d =>
      exact absurd hrec (by simp [Attribute.isRecognizedStablehlo])
  | array elems =>
      exact absurd hrec (by simp [Attribute.isRecognizedStablehlo])
  | builtin t =>
      exact absurd hrec (by simp [Attribute.isRecognizedStablehlo])

theorem convertAttr_output_stablehloFree_witness :
    attrIsStablehloFree (.array [.mhloEnum .transpose "ADJOINT"]) = true :=
  (convertAttr_output_stablehloFree
    (.array [.stablehloEnum .transpose "ADJOINT"])
    (.array [.mhloEnum .transpose "ADJOINT"]) rfl).1

end StablehloLegalizeToHlo
